import Mathlib

/-!
Verification of the styled-text typesetting engine of the `sdp` repository
(`markup.go`): the markup parser (`MarkupBuilder.Feed`), the word segmenter
(`MarkupText.words`), the greedy line wrapper (`MarkupText.wrapLines`), the
height accumulator (`MarkupText.totalHeight`), the auto-fit size scan in
`MarkupText.Draw`, and the decoration-run state machine (`lineRun.closeRun`
and the per-line drawing loop of `MarkupText.Draw`).

Modelling conventions:
* Go strings / `[]rune` become `List Char` (each supported construct works
  rune-by-rune, so a rune list is the exact state space).
* `fixed.Int26_6` (26.6 fixed point, an `int32` in sub-pixel units of 1/64)
  becomes `Int`; `Ceil()` is `(x + 0x3f) >> 6`, an arithmetic shift, i.e.
  floor division by 64 (`Int.fdiv`).  Go integer division (`/` on `int`
  and on `fixed.Int26_6`) truncates toward zero, i.e. `Int.tdiv`.
* The font library is external: a `Face` is the record of the per-glyph
  metrics the engine reads from it (advance, kern, height, ascent), passed
  as a parameter exactly where the code calls `face.GlyphAdvance`,
  `face.Kern` and `face.Metrics`.
* Font sizes are Go `float64`, but `Draw` only ever evaluates sizes
  1, 2, …, 99 (all exactly representable); a size-indexed face family is
  indexed by the size in half-units (twice the size, a natural number) so
  that the half-unit candidate sizes of the spec's refinement phase are
  also expressible.
-/

namespace SDP

/-- The `MarkupAttribute` bit flags from `markup.go` (lines 19–26):
`Bold = 1 << iota`, then Italic, Underline, Strikethrough, Code, BigText.
There are exactly six flags. -/
def Bold : ℕ := 1
def Italic : ℕ := 2
def Underline : ℕ := 4
def Strikethrough : ℕ := 8
def Code : ℕ := 16
def BigText : ℕ := 32

/-- A `Markup` run: attribute bit set plus text (`markup.go` lines 28–31). -/
structure Markup where
  attr : ℕ
  text : List Char
deriving Repr, DecidableEq

/-- `MarkupText` is a sequence of runs (`markup.go` line 33). -/
abbrev MarkupText := List Markup

/-- The backtick character (code point 96). -/
def backtickChar : Char := Char.ofNat 96

/-- Incremental parser state (`MarkupBuilder`, `markup.go` lines 44–48):
emitted runs, pending rune buffer, current attribute bit set. -/
structure MarkupBuilder where
  out : MarkupText
  buf : List Char
  state : ℕ
deriving Repr, DecidableEq

/-- A fresh builder (Go zero value). -/
def MarkupBuilder.init : MarkupBuilder := ⟨[], [], 0⟩

/-- `MarkupBuilder.emit` (`markup.go` lines 50–59): flush the pending buffer
as one run under the current state; empty buffers produce nothing. -/
def MarkupBuilder.emit (b : MarkupBuilder) : MarkupBuilder :=
  if b.buf = [] then b
  else ⟨b.out ++ [⟨b.state, b.buf⟩], [], b.state⟩

/-- Append literal characters to the pending buffer. -/
def MarkupBuilder.push (b : MarkupBuilder) (cs : List Char) : MarkupBuilder :=
  { b with buf := b.buf ++ cs }

/-- Emit the pending buffer and toggle (XOR) an attribute flag. -/
def MarkupBuilder.toggle (b : MarkupBuilder) (a : ℕ) : MarkupBuilder :=
  let b' := b.emit
  { b' with state := b'.state ^^^ a }

/-- The main loop of `MarkupBuilder.Feed` (`markup.go` lines 65–140): a
switch over the input, longest marker first, with the marker and escape
cases gated on the Code flag exactly as in the source; the default case
consumes one rune into the buffer. -/
def feedGo (b : MarkupBuilder) (content : List Char) : MarkupBuilder :=
  if content = [] then b
  else if b.state &&& Code = 0 ∧ content.take 3 = ['\\', '*', '*'] then
    feedGo (b.push ['*', '*']) (content.drop 3)
  else if b.state &&& Code = 0 ∧ content.take 3 = ['\\', '_', '_'] then
    feedGo (b.push ['_', '_']) (content.drop 3)
  else if b.state &&& Code = 0 ∧ content.take 3 = ['\\', '~', '~'] then
    feedGo (b.push ['~', '~']) (content.drop 3)
  else if b.state &&& Code = 0 ∧ content.take 3 = ['\\', '=', '='] then
    feedGo (b.push ['=', '=']) (content.drop 3)
  else if b.state &&& Code = 0 ∧ content.take 2 = ['\\', '*'] then
    feedGo (b.push ['*']) (content.drop 2)
  else if b.state &&& Code = 0 ∧ content.take 2 = ['\\', '_'] then
    feedGo (b.push ['_']) (content.drop 2)
  else if content.take 2 = ['\\', backtickChar] then
    feedGo (b.push [backtickChar]) (content.drop 2)
  else if content.take 2 = ['\\', '\\'] then
    feedGo (b.push ['\\']) (content.drop 2)
  else if b.state &&& Code = 0 ∧ content.take 2 = ['*', '*'] then
    feedGo (b.toggle Bold) (content.drop 2)
  else if b.state &&& Code = 0 ∧ content.take 2 = ['_', '_'] then
    feedGo (b.toggle Underline) (content.drop 2)
  else if b.state &&& Code = 0 ∧ content.take 2 = ['~', '~'] then
    feedGo (b.toggle Strikethrough) (content.drop 2)
  else if b.state &&& Code = 0 ∧ content.take 2 = ['=', '='] then
    feedGo (b.toggle BigText) (content.drop 2)
  else if b.state &&& Code = 0 ∧ content.take 1 = ['*'] then
    feedGo (b.toggle Italic) (content.drop 1)
  else if b.state &&& Code = 0 ∧ content.take 1 = ['_'] then
    feedGo (b.toggle Italic) (content.drop 1)
  else if content.take 1 = [backtickChar] then
    feedGo (b.toggle Code) (content.drop 1)
  else
    feedGo (b.push (content.take 1)) (content.drop 1)
termination_by content.length
decreasing_by
  all_goals
    simp only [List.length_drop]
    rcases content with _ | ⟨c, cs⟩
    · simp_all
    · simp only [List.length_cons]; omega

/-- `MarkupBuilder.Dirty` (`markup.go` lines 150–152). -/
def MarkupBuilder.dirty (b : MarkupBuilder) : Bool :=
  decide (b.out ≠ [] ∨ b.buf ≠ [] ∨ b.state ≠ 0)

/-- `MarkupBuilder.Feed` (`markup.go` lines 61–142): a not-yet-dirty builder
strips leading newlines from the chunk (`strings.TrimLeft(content, "\n")`),
then the switch loop runs and the tail buffer is emitted. -/
def MarkupBuilder.feed (b : MarkupBuilder) (content : List Char) : MarkupBuilder :=
  (feedGo b (if b.dirty then content else content.dropWhile (· = '\n'))).emit

/-- `MarkupBuilder.Text` (`markup.go` lines 144–148): flush, return runs. -/
def MarkupBuilder.toText (b : MarkupBuilder) : MarkupText := b.emit.out

/-- `MarkupBuilder.Reset` (`markup.go` lines 154–158). -/
def MarkupBuilder.reset (_ : MarkupBuilder) : MarkupBuilder := ⟨[], [], 0⟩

/-- Parsing one whole string: feed it to a fresh builder and take the runs
(the `ParseMarkup` convention documented at `markup.go` line 35). -/
def parseMarkup (content : List Char) : MarkupText :=
  (MarkupBuilder.init.feed content).toText

/-- `MarkupText.String` (`markup.go` lines 361–367): concatenation of the
runs' text. -/
def markupString (m : MarkupText) : List Char :=
  (m.map Markup.text).flatten

/-- Go's `unicode.IsSpace`: the Unicode `White_Space` property (the exact
set Go tests: Latin-1 fast path plus the White_Space code points). -/
def goIsSpace (c : Char) : Bool :=
  let n := c.toNat
  (9 ≤ n && n ≤ 13) || n = 32 || n = 0x85 || n = 0xA0 || n = 0x1680 ||
  (0x2000 ≤ n && n ≤ 0x200A) || n = 0x2028 || n = 0x2029 || n = 0x202F ||
  n = 0x205F || n = 0x3000

/-- The splitting loop of `MarkupText.words` (`markup.go` lines 249–264):
accumulate runes, flushing whenever the space/non-space kind changes and
the accumulator is non-empty; flush the non-empty tail. -/
def splitGo : List Char → List Char → Bool → List (List Char)
  | [], runes, _ => if runes = [] then [] else [runes]
  | r :: rest, runes, wasSpace =>
    if runes ≠ [] ∧ wasSpace ≠ goIsSpace r then
      runes :: splitGo rest [r] (goIsSpace r)
    else
      splitGo rest (runes ++ [r]) (goIsSpace r)

/-- One atom of the word segmenter: attribute plus character chunk. -/
abbrev Atom := ℕ × List Char

/-- `MarkupText.words` (`markup.go` lines 238–267): runs carrying Code or
BigText are yielded verbatim as one atom; other runs are split into
maximal space / non-space chunks. -/
def words (m : MarkupText) : List Atom :=
  (m.map fun part =>
    if part.attr &&& (Code ||| BigText) ≠ 0 then
      [(part.attr, part.text)]
    else
      (splitGo part.text [] false).map fun cs => (part.attr, cs)).flatten

/-- Per-glyph metrics the engine reads from a font face at one (style,
size): advance width, kerning, line height, ascent — all in 26.6 fixed
point, as returned by `face.GlyphAdvance`, `face.Kern`, `face.Metrics`. -/
structure Face where
  advance : Char → Int
  kern : Char → Char → Int
  height : Int
  ascent : Int

/-- `fixed.Int26_6.Ceil`: `(x + 0x3f) >> 6` (arithmetic shift = floor). -/
def ceil26_6 (x : Int) : Int := Int.fdiv (x + 63) 64

/-- The accumulation loop of `MarkupAttribute.measureText`
(`markup.go` lines 217–236): kern against the previous rune, then either
a tab (advance of a space times the tab size) or the rune's advance. -/
def measureGo (f : Face) (tab : Int) : Option Char → List Char → Int
  | _, [] => 0
  | prev, r :: rest =>
    (match prev with | some p => f.kern p r | none => 0) +
    (if r = '\t' then f.advance ' ' * tab else f.advance r) +
    measureGo f tab (some r) rest

/-- `measureText` of a whole chunk (initial `prevRune = -1`). -/
def measureText (f : Face) (tab : Int) (cs : List Char) : Int :=
  measureGo f tab none cs

/-- One yielded element of `wrapLines`: the `(fixed.Int26_6, MarkupText)`
pair.  `(-1, [])` is the overflow sentinel, an empty atom list read as the
newline sentinel by the consumers (`totalHeight`, `Draw`). -/
abbrev WrapItem := Int × List Atom

/-- `unicode.IsSpace(word[0])`: whether a chunk starts with whitespace.
(Go would panic on an empty chunk; that path is unreachable, and the
empty case is modelled as `false`.) -/
def headSpace (cs : List Char) : Bool :=
  match cs with
  | c :: _ => goIsSpace c
  | [] => false

/-- The overflow sentinel `yield(-1, nil)` (`markup.go` line 292). -/
def overflowItem : WrapItem := (-1, [])

/-- `MarkupText.wrapLines` (`markup.go` lines 269–312), one atom per step.
If the atom contains a newline, the buffered line and the newline sentinel
are yielded and only the text after the FIRST newline survives.  An atom
whose measured advance makes `(width+adv).Ceil()` exceed the box width
either aborts with the overflow sentinel (empty accumulator) or closes the
line — dropping the atom when it is whitespace, else starting the next
line with it, without rechecking.  (On the non-empty-accumulator overflow
path Go indexes `word[0]`; an empty atom there would panic — that state is
unreachable from `words` output, and the head test is modelled as `false`
for the empty chunk.) -/
def wrapGo (face : ℕ → Face) (tab dx : Int) :
    List Atom → Int → List Atom → List WrapItem
  | [], width, line => [(width, line)]
  | (attr, word) :: rest, width, line =>
    match word.findIdx? (· = '\n') with
    | some nl =>
      let word' := word.drop (nl + 1)
      if word' = [] then
        (width, line) :: (0, []) :: wrapGo face tab dx rest 0 []
      else
        let adv := measureText (face attr) tab word'
        (width, line) :: (0, []) ::
          (if dx < ceil26_6 (0 + adv) then
            [(-1, [])]
          else
            wrapGo face tab dx rest (0 + adv) [(attr, word')])
    | none =>
      let adv := measureText (face attr) tab word
      if dx < ceil26_6 (width + adv) then
        if width = 0 then
          [(-1, [])]
        else
          (width, line) ::
            (if headSpace word then
              wrapGo face tab dx rest 0 []
            else
              wrapGo face tab dx rest adv [(attr, word)])
      else
        wrapGo face tab dx rest (width + adv) (line ++ [(attr, word)])

/-- Wrapping an atom sequence from the empty accumulator. -/
def wrapAtoms (face : ℕ → Face) (tab dx : Int) (atoms : List Atom) : List WrapItem :=
  wrapGo face tab dx atoms 0 []

/-- `wrapLines` on a `MarkupText`: segment, then wrap. -/
def wrapLines (face : ℕ → Face) (tab dx : Int) (m : MarkupText) : List WrapItem :=
  wrapAtoms face tab dx (words m)

/-- `MarkupText.height` (`markup.go` lines 314–321): max face height over
the parts of a line (the ascent component is `lineAsc`). -/
def lineHeight (face : ℕ → Face) (l : List Atom) : Int :=
  l.foldl (fun h p => max h (face p.1).height) 0

/-- Ascent component of `MarkupText.height`. -/
def lineAsc (face : ℕ → Face) (l : List Atom) : Int :=
  l.foldl (fun a p => max a (face p.1).ascent) 0

/-- `MarkupText.totalHeight` (`markup.go` lines 369–384) on the yielded
items: overflow (`w = -1`) makes the whole computation fail (`ok=false`,
here `none`); an empty item adds the newline spacing; a line adds its
height. -/
def totalHeightItems (face : ℕ → Face) (nlSpace : Int) : List WrapItem → Option Int
  | [] => some 0
  | (w, text) :: rest =>
    if w = -1 then none
    else if text = [] then
      (totalHeightItems face nlSpace rest).map (nlSpace + ·)
    else
      (totalHeightItems face nlSpace rest).map (lineHeight face text + ·)

/-- `totalHeight` of a markup text: wrap, then accumulate. -/
def totalHeight (face : ℕ → Face) (nlSpace tab dx : Int) (m : MarkupText) : Option Int :=
  totalHeightItems face nlSpace (wrapLines face tab dx m)

/-- The fit test of the auto-fit loop in `MarkupText.Draw`
(`markup.go` lines 391–394): the candidate survives iff `totalHeight`
succeeded and `h.Ceil() < bounds.Dy()` (the loop breaks on
`!ok || h.Ceil() >= bounds.Dy()`). -/
def sizeFits (face : ℕ → Face) (nlSpace tab dx dy : Int) (m : MarkupText) : Bool :=
  match totalHeight face nlSpace tab dx m with
  | none => false
  | some h => decide (ceil26_6 h < dy)

/-- The size-search loop of `MarkupText.Draw` (`markup.go` lines 389–399):
`for i := 1; i < 100; i += 1 { if !fits(i) { break }; size = i }`, written
as a fold with early exit over the loop's iteration space `1, …, 99`
(`i` is a `float64` in Go but only takes the integral values 1…99). -/
def autoFitGo (fits : ℕ → Bool) : List ℕ → ℕ → ℕ
  | [], size => size
  | i :: rest, size => if fits i then autoFitGo fits rest i else size

/-- The size chosen by `Draw`'s search (0 when even size 1 fails). -/
def autoFitSize (fits : ℕ → Bool) : ℕ := autoFitGo fits (List.range' 1 99) 0

/-- `Draw`'s chosen size for a text and box: the loop applied to the real
fit test, with the face family and the newline spacing
(`fixed.I(int(size*cfg.NewlineSpacing))`) indexed by candidate size in
half-units (`faces (2 * i)` is the face family at size `i`). -/
def drawSize (faces : ℕ → ℕ → Face) (nlSpace : ℕ → Int) (tab dx dy : Int)
    (m : MarkupText) : ℕ :=
  autoFitSize (fun i => sizeFits (faces (2 * i)) (nlSpace (2 * i)) tab dx dy m)

/-! The two-phase search described by the specification, as the comparison
point for the claim that `Draw`'s size search proceeds in two phases.
These definitions follow the spec's §4.4 wording, not the source: an
expansion phase that starts at size 1 and doubles the candidate while it
fits, then a refinement phase scanning upward from the last fitting size
in half-unit steps to the first failing size.  Sizes are in half-units
(so the half-unit step is `+ 1` and size 1 is `2`); the fuel arguments
bound the loops and are never exhausted on the inputs considered here. -/

/-- Spec §4.4 expansion phase: double `lo` while the doubled candidate
still fits; result is (last fitting size, first failing size). -/
def specExpandGo (fits : ℕ → Bool) : ℕ → ℕ → ℕ × ℕ
  | 0, lo => (lo, 2 * lo)
  | fuel + 1, lo =>
    if fits (2 * lo) then specExpandGo fits fuel (2 * lo) else (lo, 2 * lo)

/-- Spec §4.4 refinement phase: scan upward from `cand` in half-unit steps
up to `hi`, keeping the largest fitting size; stop at the first failure. -/
def specRefineGo (fits : ℕ → Bool) : ℕ → ℕ → ℕ → ℕ → ℕ
  | 0, _, _, best => best
  | fuel + 1, cand, hi, best =>
    if hi < cand then best
    else if fits cand then specRefineGo fits fuel (cand + 1) hi cand
    else best

/-- The spec's §4.4 two-phase auto-fit search (sizes in half-units): if
even size 1 fails, return the degenerate 0; otherwise expand then refine. -/
def specAutoFitSize (fits : ℕ → Bool) : ℕ :=
  if fits 2 then
    let lh := specExpandGo fits 64 2
    specRefineGo fits 512 lh.1 lh.2 lh.1
  else 0

/-! The decoration-run state machine of `MarkupText.Draw`
(`markup.go` lines 401–530) and `lineRun.closeRun` (lines 332–359),
restricted to what it computes besides blitting glyph masks: the pen
position and the underline/strikethrough rectangles it emits. -/

/-- A rectangle as built by `image.Rect(x0, y0, x1, y1)`. -/
structure GoRect where
  x0 : Int
  y0 : Int
  x1 : Int
  y1 : Int
deriving Repr, DecidableEq

/-- `image.Rect` swaps the coordinates into canonical order. -/
def mkRect (x0 y0 x1 y1 : Int) : GoRect :=
  ⟨min x0 x1, min y0 y1, max x0 x1, max y0 y1⟩

/-- `Rectangle.Add(bounds.Min)`: translate by the box origin. -/
def GoRect.trans (r : GoRect) (ox oy : Int) : GoRect :=
  ⟨r.x0 + ox, r.y0 + oy, r.x1 + ox, r.y1 + oy⟩

/-- `lineRun` (`markup.go` lines 324–329), with the stored `font.Face`
replaced by the two metrics `closeRun` reads from it. -/
structure LineRun where
  underline : Bool
  active : Bool
  start : Int
  faceHeight : Int
  faceAscent : Int
deriving Repr, DecidableEq

/-- `lineRun.closeRun` (`markup.go` lines 332–359): inactive runs emit
nothing; thickness is `max(Height.Ceil()/20, 1)` (Go `int` division
truncates); underline sits at `dot.Y + fixed.I(thick)`, strikethrough at
`dot.Y - Ascent/3`; the run is deactivated, and a rectangle is emitted
only when the pen moved past the recorded start.  (The source's late
`if y < 1 { y = 1 }` touches a variable that is no longer read.) -/
def closeRun (run : LineRun) (dotX dotY : Int) : LineRun × Option GoRect :=
  if run.active = false then (run, none)
  else
    let thick := max (Int.tdiv (ceil26_6 run.faceHeight) 20) 1
    let y := if run.underline then dotY + thick * 64
             else dotY - Int.tdiv run.faceAscent 3
    let run' := { run with active := false }
    if dotX ≤ run.start then (run', none)
    else (run', some (mkRect (ceil26_6 run.start) (ceil26_6 y)
                             (ceil26_6 dotX) (ceil26_6 y + thick)))

/-- The mutable state of the per-line loop in `Draw`: pen position, the
vertical offset, the previous rune for kerning, the two decoration runs,
and the rectangles emitted so far (tagged `true` for underline). -/
structure DrawSt where
  dotX : Int
  dotY : Int
  yOffset : Int
  prev : Option Char
  ulRun : LineRun
  stRun : LineRun
  rects : List (Bool × GoRect)
deriving Repr, DecidableEq

/-- Close one decoration run in the state, translating and recording the
emitted rectangle as `Draw` does (`line.Add(bounds.Min)` then fill). -/
def DrawSt.close (s : DrawSt) (ox oy : Int) (isUl : Bool) : DrawSt :=
  if isUl then
    let (r, rect) := closeRun s.ulRun s.dotX s.dotY
    { s with ulRun := r,
             rects := s.rects ++ (rect.map fun q => [(true, q.trans ox oy)]).getD [] }
  else
    let (r, rect) := closeRun s.stRun s.dotX s.dotY
    { s with stRun := r,
             rects := s.rects ++ (rect.map fun q => [(false, q.trans ox oy)]).getD [] }

/-- The per-rune body of `Draw`'s inner loop (`markup.go` lines 472–510):
a newline closes both open runs and moves the pen to the next visual row;
otherwise kern against the previous rune, then advance by the tab or the
glyph advance (the glyph mask blit does not change the tracked state). -/
def drawChar (f : Face) (tab h asc ox oy : Int) (s : DrawSt) (r : Char) : DrawSt :=
  if r = '\n' then
    let s := s.close ox oy true
    let s := s.close ox oy false
    { s with yOffset := s.yOffset + h,
             dotX := 0,
             dotY := s.yOffset + h + asc,
             prev := none }
  else
    let kerned := match s.prev with
      | some p => s.dotX + f.kern p r
      | none => s.dotX
    let adv := if r = '\t' then f.advance ' ' * tab else f.advance r
    { s with dotX := kerned + adv, prev := some r }

/-- The per-part body of `Draw`'s line loop (`markup.go` lines 435–511):
open a decoration run when the part carries the flag and none is active,
close it when the flag is absent and one is active, then walk the runes. -/
def drawPart (face : ℕ → Face) (tab h asc ox oy : Int) (s : DrawSt) (p : Atom) : DrawSt :=
  let f := face p.1
  let hasUL := p.1 &&& Underline ≠ 0
  let hasST := p.1 &&& Strikethrough ≠ 0
  let s := if hasUL ∧ ¬s.ulRun.active then
      { s with ulRun := ⟨true, true, s.dotX, f.height, f.ascent⟩ }
    else s
  let s := if ¬hasUL ∧ s.ulRun.active then s.close ox oy true else s
  let s := if hasST ∧ ¬s.stRun.active then
      { s with stRun := ⟨false, true, s.dotX, f.height, f.ascent⟩ }
    else s
  let s := if ¬hasST ∧ s.stRun.active then s.close ox oy false else s
  p.2.foldl (drawChar f tab h asc ox oy) s

/-- Rasterising one visual line (`markup.go` lines 413–530 for a single
`text` item): the pen starts at the alignment-determined `startX` and at
`yOffset + ascent`; the parts are walked, and at line end both open runs
are closed.  Returns the final state, whose `rects` lists every emitted
decoration rectangle in order. -/
def drawLineModel (face : ℕ → Face) (tab ox oy startX yOff0 : Int)
    (text : List Atom) : DrawSt :=
  let h := lineHeight face text
  let asc := lineAsc face text
  let s0 : DrawSt :=
    { dotX := startX, dotY := yOff0 + asc, yOffset := yOff0, prev := none,
      ulRun := ⟨true, false, 0, 0, 0⟩, stRun := ⟨false, false, 0, 0, 0⟩,
      rects := [] }
  let s := text.foldl (drawPart face tab h asc ox oy) s0
  let s := s.close ox oy true
  s.close ox oy false

/-! Concrete metrics used to exercise the definitions: a face whose glyphs
all advance one pixel (64 sub-pixel units) with no kerning, a face where
`b` is ten pixels wide, and a family (indexed by size in half-units) whose
line height is one pixel per half-unit. -/

/-- Uniform one-pixel face. -/
def cFace : ℕ → Face := fun _ => ⟨fun _ => 64, fun _ _ => 0, 64 * 15, 64 * 12⟩

/-- Face with a ten-pixel `b` and one-pixel everything else. -/
def wFace : ℕ → Face :=
  fun _ => ⟨fun c => if c = 'b' then 640 else 64, fun _ _ => 0, 64 * 15, 64 * 12⟩

/-- Size-indexed family (half-units): line height grows one pixel per
half-unit of size, advances stay at one pixel. -/
def cFacesH : ℕ → ℕ → Face := fun n _ => ⟨fun _ => 64, fun _ _ => 0, 64 * n, 64⟩

/-- Zero newline spacing at every size. -/
def cNl : ℕ → Int := fun _ => 0

/-- A one-word text. -/
def cM : MarkupText := [⟨0, ['x']⟩]

/-- The atoms of all non-sentinel lines of a wrap result, in order. -/
def linesAtoms (items : List WrapItem) : List Atom :=
  (items.map Prod.snd).flatten

/-- The concatenated text of all non-sentinel lines of a wrap result. -/
def itemsText (items : List WrapItem) : List Char :=
  ((linesAtoms items).map Prod.snd).flatten

/-- The concatenated text of an atom sequence. -/
def atomsText (atoms : List Atom) : List Char :=
  (atoms.map Prod.snd).flatten

/-- `ys` with some atoms whose first character is whitespace elided: the
relation between the atoms surviving a wrap and the atoms fed to it. -/
inductive elideWS : List Atom → List Atom → Prop
  | nil : elideWS [] []
  | keep (a : Atom) {xs ys : List Atom} : elideWS xs ys → elideWS (a :: xs) (a :: ys)
  | dropWS (a : Atom) {xs ys : List Atom} : headSpace a.2 = true → elideWS xs ys →
      elideWS xs (a :: ys)

/-- A character that is never part of a marker on its own: not `*`, `_`,
or backtick. -/
def plainChar (c : Char) : Prop := c ≠ '*' ∧ c ≠ '_' ∧ c ≠ backtickChar

/-- No two adjacent equal characters drawn from `~`, `=`, `\`: rules out
the `~~` and `==` markers and the `\\` escape. -/
def noDoubles : List Char → Bool
  | a :: b :: t =>
    decide (¬(a = b ∧ (a = '~' ∨ a = '=' ∨ a = '\\'))) && noDoubles (b :: t)
  | _ => true

/-- Input with no unescaped markers and no escape sequences: no `*`, `_`,
or backtick anywhere, and no adjacent `~~`, `==`, or `\\` pair (single
`~`, `=`, `\` are ordinary literal characters to the parser). -/
def markerFree (cs : List Char) : Prop :=
  (∀ c ∈ cs, plainChar c) ∧ noDoubles cs = true

instance : DecidablePred plainChar := fun c =>
  inferInstanceAs (Decidable (c ≠ '*' ∧ c ≠ '_' ∧ c ≠ backtickChar))

instance : DecidablePred markerFree := fun cs =>
  inferInstanceAs (Decidable ((∀ c ∈ cs, plainChar c) ∧ noDoubles cs = true))

/-! Helper lemmas. -/

theorem noDoubles_tail {c : Char} {rest : List Char}
    (h : noDoubles (c :: rest) = true) : noDoubles rest = true := by
  rcases rest with _ | ⟨b, t⟩
  · rfl
  · simp only [noDoubles, Bool.and_eq_true] at h
    exact h.2

theorem chain_no_double {cs : List Char} (h : noDoubles cs = true)
    (x : Char) (hx : x = '~' ∨ x = '=' ∨ x = '\\') : cs.take 2 ≠ [x, x] := by
  rcases cs with _ | ⟨a, _ | ⟨b, t⟩⟩
  · simp
  · simp
  · intro hh
    obtain ⟨ha, hb⟩ : a = x ∧ b = x := by simpa using hh
    simp only [noDoubles, Bool.and_eq_true, decide_eq_true_eq] at h
    exact h.1 ⟨ha.trans hb.symm, by subst ha; exact hx⟩

theorem push_push (b : MarkupBuilder) (xs ys : List Char) :
    (b.push xs).push ys = b.push (xs ++ ys) := by
  simp [MarkupBuilder.push]

theorem toggle_state_lt (b : MarkupBuilder) (a : ℕ) (hb : b.state < 64)
    (ha : a < 64) : (b.toggle a).state < 64 := by
  have hemit : b.emit.state = b.state := by
    unfold MarkupBuilder.emit; split <;> rfl
  simpa [MarkupBuilder.toggle, hemit] using Nat.xor_lt_two_pow (n := 6) hb ha

set_option maxHeartbeats 2000000 in
theorem feedGo_state_lt_aux : ∀ (n : ℕ) (b : MarkupBuilder) (cs : List Char),
    cs.length ≤ n → b.state < 64 → (feedGo b cs).state < 64 := by
  intro n
  induction n with
  | zero =>
    intro b cs hlen hb
    have hnil : cs = [] := List.eq_nil_of_length_eq_zero (Nat.le_zero.mp hlen)
    subst hnil
    rw [feedGo.eq_def]
    simpa using hb
  | succ n ih =>
    intro b cs hlen hb
    rw [feedGo.eq_def]
    by_cases h1 : cs = []
    · rw [if_pos h1]; exact hb
    rw [if_neg h1]
    have hpos : 0 < cs.length := List.length_pos.mpr h1
    have hlen3 : (cs.drop 3).length ≤ n := by simp only [List.length_drop]; omega
    have hlen2 : (cs.drop 2).length ≤ n := by simp only [List.length_drop]; omega
    have hlen1 : (cs.drop 1).length ≤ n := by simp only [List.length_drop]; omega
    have hpush : ∀ l, (MarkupBuilder.push b l).state < 64 := fun _ => hb
    have htog : ∀ a, a < 64 → (MarkupBuilder.toggle b a).state < 64 :=
      fun a ha => toggle_state_lt b a hb ha
    by_cases h2 : b.state &&& Code = 0 ∧ cs.take 3 = ['\\', '*', '*']
    · rw [if_pos h2]; exact ih _ _ hlen3 (hpush _)
    rw [if_neg h2]
    by_cases h3 : b.state &&& Code = 0 ∧ cs.take 3 = ['\\', '_', '_']
    · rw [if_pos h3]; exact ih _ _ hlen3 (hpush _)
    rw [if_neg h3]
    by_cases h4 : b.state &&& Code = 0 ∧ cs.take 3 = ['\\', '~', '~']
    · rw [if_pos h4]; exact ih _ _ hlen3 (hpush _)
    rw [if_neg h4]
    by_cases h5 : b.state &&& Code = 0 ∧ cs.take 3 = ['\\', '=', '=']
    · rw [if_pos h5]; exact ih _ _ hlen3 (hpush _)
    rw [if_neg h5]
    by_cases h6 : b.state &&& Code = 0 ∧ cs.take 2 = ['\\', '*']
    · rw [if_pos h6]; exact ih _ _ hlen2 (hpush _)
    rw [if_neg h6]
    by_cases h7 : b.state &&& Code = 0 ∧ cs.take 2 = ['\\', '_']
    · rw [if_pos h7]; exact ih _ _ hlen2 (hpush _)
    rw [if_neg h7]
    by_cases h8 : cs.take 2 = ['\\', backtickChar]
    · rw [if_pos h8]; exact ih _ _ hlen2 (hpush _)
    rw [if_neg h8]
    by_cases h9 : cs.take 2 = ['\\', '\\']
    · rw [if_pos h9]; exact ih _ _ hlen2 (hpush _)
    rw [if_neg h9]
    by_cases h10 : b.state &&& Code = 0 ∧ cs.take 2 = ['*', '*']
    · rw [if_pos h10]; exact ih _ _ hlen2 (htog _ (by decide))
    rw [if_neg h10]
    by_cases h11 : b.state &&& Code = 0 ∧ cs.take 2 = ['_', '_']
    · rw [if_pos h11]; exact ih _ _ hlen2 (htog _ (by decide))
    rw [if_neg h11]
    by_cases h12 : b.state &&& Code = 0 ∧ cs.take 2 = ['~', '~']
    · rw [if_pos h12]; exact ih _ _ hlen2 (htog _ (by decide))
    rw [if_neg h12]
    by_cases h13 : b.state &&& Code = 0 ∧ cs.take 2 = ['=', '=']
    · rw [if_pos h13]; exact ih _ _ hlen2 (htog _ (by decide))
    rw [if_neg h13]
    by_cases h14 : b.state &&& Code = 0 ∧ cs.take 1 = ['*']
    · rw [if_pos h14]; exact ih _ _ hlen1 (htog _ (by decide))
    rw [if_neg h14]
    by_cases h15 : b.state &&& Code = 0 ∧ cs.take 1 = ['_']
    · rw [if_pos h15]; exact ih _ _ hlen1 (htog _ (by decide))
    rw [if_neg h15]
    by_cases h16 : cs.take 1 = [backtickChar]
    · rw [if_pos h16]; exact ih _ _ hlen1 (htog _ (by decide))
    rw [if_neg h16]
    exact ih _ _ hlen1 (hpush _)

theorem feedGo_state_lt (b : MarkupBuilder) (cs : List Char)
    (hb : b.state < 64) : (feedGo b cs).state < 64 :=
  feedGo_state_lt_aux cs.length b cs le_rfl hb

theorem feedGo_plain (cs : List Char) : ∀ b : MarkupBuilder, markerFree cs →
    feedGo b cs = b.push cs := by
  induction cs with
  | nil =>
    intro b _
    rw [feedGo.eq_def]
    simp [MarkupBuilder.push]
  | cons c rest ih =>
    intro b hfree
    obtain ⟨hchars, hchain⟩ := hfree
    have hrest : markerFree rest :=
      ⟨fun x hx => hchars x (List.mem_cons_of_mem _ hx), noDoubles_tail hchain⟩
    have hno : ∀ (l : List Char) (n : ℕ) (x : Char), x ∈ l → ¬plainChar x →
        (c :: rest).take n ≠ l := by
      intro l n x hxl hnp h
      exact hnp (hchars x (List.mem_of_mem_take (h ▸ hxl)))
    have htail2 : ∀ {x : Char}, (c :: rest).take 3 = ['\\', x, x] →
        rest.take 2 = [x, x] := by
      intro x h
      simpa using congrArg List.tail h
    have hf1 : ¬(b.state &&& Code = 0 ∧ (c :: rest).take 3 = ['\\', '*', '*']) :=
      fun h => hno ['\\', '*', '*'] 3 '*' (by simp) (by decide) h.2
    have hf2 : ¬(b.state &&& Code = 0 ∧ (c :: rest).take 3 = ['\\', '_', '_']) :=
      fun h => hno ['\\', '_', '_'] 3 '_' (by simp) (by decide) h.2
    have hf3 : ¬(b.state &&& Code = 0 ∧ (c :: rest).take 3 = ['\\', '~', '~']) :=
      fun h => chain_no_double (noDoubles_tail hchain) '~' (Or.inl rfl) (htail2 h.2)
    have hf4 : ¬(b.state &&& Code = 0 ∧ (c :: rest).take 3 = ['\\', '=', '=']) :=
      fun h => chain_no_double (noDoubles_tail hchain) '=' (Or.inr (Or.inl rfl)) (htail2 h.2)
    have hf5 : ¬(b.state &&& Code = 0 ∧ (c :: rest).take 2 = ['\\', '*']) :=
      fun h => hno ['\\', '*'] 2 '*' (by simp) (by decide) h.2
    have hf6 : ¬(b.state &&& Code = 0 ∧ (c :: rest).take 2 = ['\\', '_']) :=
      fun h => hno ['\\', '_'] 2 '_' (by simp) (by decide) h.2
    have hf7 : ¬((c :: rest).take 2 = ['\\', backtickChar]) :=
      fun h => hno ['\\', backtickChar] 2 backtickChar (by simp) (by decide) h
    have hf8 : ¬((c :: rest).take 2 = ['\\', '\\']) :=
      fun h => chain_no_double hchain '\\' (Or.inr (Or.inr rfl)) h
    have hf9 : ¬(b.state &&& Code = 0 ∧ (c :: rest).take 2 = ['*', '*']) :=
      fun h => hno ['*', '*'] 2 '*' (by simp) (by decide) h.2
    have hf10 : ¬(b.state &&& Code = 0 ∧ (c :: rest).take 2 = ['_', '_']) :=
      fun h => hno ['_', '_'] 2 '_' (by simp) (by decide) h.2
    have hf11 : ¬(b.state &&& Code = 0 ∧ (c :: rest).take 2 = ['~', '~']) :=
      fun h => chain_no_double hchain '~' (Or.inl rfl) h.2
    have hf12 : ¬(b.state &&& Code = 0 ∧ (c :: rest).take 2 = ['=', '=']) :=
      fun h => chain_no_double hchain '=' (Or.inr (Or.inl rfl)) h.2
    have hf13 : ¬(b.state &&& Code = 0 ∧ (c :: rest).take 1 = ['*']) :=
      fun h => hno ['*'] 1 '*' (by simp) (by decide) h.2
    have hf14 : ¬(b.state &&& Code = 0 ∧ (c :: rest).take 1 = ['_']) :=
      fun h => hno ['_'] 1 '_' (by simp) (by decide) h.2
    have hf15 : ¬((c :: rest).take 1 = [backtickChar]) :=
      fun h => hno [backtickChar] 1 backtickChar (by simp) (by decide) h
    rw [feedGo.eq_def, if_neg (by simp : ¬(c :: rest = [])), if_neg hf1, if_neg hf2,
      if_neg hf3, if_neg hf4, if_neg hf5, if_neg hf6, if_neg hf7, if_neg hf8,
      if_neg hf9, if_neg hf10, if_neg hf11, if_neg hf12, if_neg hf13, if_neg hf14,
      if_neg hf15]
    simp only [List.take_succ_cons, List.take_zero, List.drop_succ_cons, List.drop_zero]
    rw [ih _ hrest, push_push]
    rfl

/-- C10 (confirmed): after `Reset` the builder is indistinguishable from a
freshly constructed one — it equals the zero builder, `Dirty` is false,
`Text` yields no runs, and the next `Feed` strips leading newlines from
its chunk exactly as on a fresh builder — and `Dirty` is false precisely
when there are no emitted runs, the pending buffer is empty, and the
style state is zero. -/
theorem C10_reset_fresh (b : MarkupBuilder) (c : List Char) :
    b.reset = MarkupBuilder.init ∧
    b.reset.dirty = false ∧
    b.reset.toText = [] ∧
    b.reset.feed c = (feedGo MarkupBuilder.init (c.dropWhile (· = '\n'))).emit ∧
    (b.dirty = false ↔ (b.out = [] ∧ b.buf = [] ∧ b.state = 0)) := by
  refine ⟨rfl, rfl, rfl, rfl, ?_⟩
  simp [MarkupBuilder.dirty]

/-- C5 counterexample: the code's style set (declared at `markup.go`
lines 19–26) has no NoWrap flag and `@` is not a marker: feeding `@` to a
fresh builder leaves the style state at zero and emits `@` as literal run
text, whereas the claim requires `@` to toggle a NoWrap style flag. -/
theorem C5_counterexample :
    parseMarkup ['@'] = [⟨0, ['@']⟩] ∧ (MarkupBuilder.init.feed ['@']).state = 0 := by
  constructor <;>
    simp [parseMarkup, MarkupBuilder.feed, MarkupBuilder.dirty, MarkupBuilder.init,
      MarkupBuilder.toText, MarkupBuilder.emit, MarkupBuilder.push, feedGo, backtickChar]

/-- C5 (corrected, amended): outside Code spans the parser recognizes
exactly the markers `**`→Bold, `__`→Underline, `~~`→Strikethrough,
`==`→BigText, backtick→Code, and single `*`/`_`→Italic, toggling the
corresponding flag by XOR with longest-prefix-first matching; `@` is an
ordinary literal character, and the parser state never leaves the six
defined flag bits (there is no NoWrap flag in the style set). -/
theorem C5_amended (b : MarkupBuilder) (rest : List Char)
    (hcode : b.state &&& Code = 0) :
    (feedGo b ('*' :: '*' :: rest) = feedGo (b.toggle Bold) rest) ∧
    (feedGo b ('_' :: '_' :: rest) = feedGo (b.toggle Underline) rest) ∧
    (feedGo b ('~' :: '~' :: rest) = feedGo (b.toggle Strikethrough) rest) ∧
    (feedGo b ('=' :: '=' :: rest) = feedGo (b.toggle BigText) rest) ∧
    (feedGo b (backtickChar :: rest) = feedGo (b.toggle Code) rest) ∧
    (rest.head? ≠ some '*' → feedGo b ('*' :: rest) = feedGo (b.toggle Italic) rest) ∧
    (rest.head? ≠ some '_' → feedGo b ('_' :: rest) = feedGo (b.toggle Italic) rest) ∧
    (feedGo b ('@' :: rest) = feedGo (b.push ['@']) rest) ∧
    (∀ cs, b.state < 64 → (feedGo b cs).state < 64) := by
  refine ⟨?_, ?_, ?_, ?_, ?_, ?_, ?_, ?_, fun cs h => feedGo_state_lt b cs h⟩
  · rw [feedGo.eq_def]; simp [hcode, backtickChar]
  · rw [feedGo.eq_def]; simp [hcode, backtickChar]
  · rw [feedGo.eq_def]; simp [hcode, backtickChar]
  · rw [feedGo.eq_def]; simp [hcode, backtickChar]
  · rw [feedGo.eq_def]; simp [backtickChar]
  · intro hr
    rw [feedGo.eq_def]
    cases rest with
    | nil => simp [hcode, backtickChar]
    | cons c cs =>
      simp only [List.head?, ne_eq, Option.some.injEq] at hr
      simp [hcode, backtickChar, hr]
  · intro hr
    rw [feedGo.eq_def]
    cases rest with
    | nil => simp [hcode, backtickChar]
    | cons c cs =>
      simp only [List.head?, ne_eq, Option.some.injEq] at hr
      simp [hcode, backtickChar, hr]
  · rw [feedGo.eq_def]; simp [backtickChar]

/-- Witness for `C5_amended`: a fresh builder on concrete inputs. -/
theorem C5_amended_witness :
    feedGo MarkupBuilder.init ('*' :: '*' :: ['a']) =
      feedGo (MarkupBuilder.init.toggle Bold) ['a'] ∧
    feedGo MarkupBuilder.init ('*' :: ['a']) =
      feedGo (MarkupBuilder.init.toggle Italic) ['a'] :=
  ⟨(C5_amended MarkupBuilder.init ['a'] (by decide)).1,
    (C5_amended MarkupBuilder.init ['a'] (by decide)).2.2.2.2.2.1 (by decide)⟩

/-- C6 counterexample: the claim's single-character escapes for `~`, `=`
and `@` do not exist in the code — a backslash before `~x`, `=x` or `@`
falls to the default case and the backslash itself is emitted literally,
instead of the escape emitting the bare character and consuming two input
characters. -/
theorem C6_counterexample :
    parseMarkup ['\\', '~', 'x'] = [⟨0, ['\\', '~', 'x']⟩] ∧
    parseMarkup ['\\', '=', 'x'] = [⟨0, ['\\', '=', 'x']⟩] ∧
    parseMarkup ['\\', '@'] = [⟨0, ['\\', '@']⟩] := by
  refine ⟨?_, ?_, ?_⟩ <;>
    simp [parseMarkup, MarkupBuilder.feed, MarkupBuilder.dirty, MarkupBuilder.init,
      MarkupBuilder.toText, MarkupBuilder.emit, MarkupBuilder.push, feedGo, backtickChar]

/-- C6 (corrected, amended): outside Code spans the two-character marker
escapes `\**`, `\__`, `\~~`, `\==` emit the two literal marker characters
and consume three input characters and are checked before the
single-character escapes, and the single-character escapes are exactly
`\*`, `\_` (outside Code spans) and `` \` ``, `\\` (always), emitting the
literal character and consuming two input characters — there are no
single-character escapes for `~`, `=`, or `@`; parsing the 7-character
input `\**a\**` yields the single unstyled run `**a**`. -/
theorem C6_amended (b : MarkupBuilder) (rest : List Char)
    (hcode : b.state &&& Code = 0) :
    (feedGo b ('\\' :: '*' :: '*' :: rest) = feedGo (b.push ['*', '*']) rest) ∧
    (feedGo b ('\\' :: '_' :: '_' :: rest) = feedGo (b.push ['_', '_']) rest) ∧
    (feedGo b ('\\' :: '~' :: '~' :: rest) = feedGo (b.push ['~', '~']) rest) ∧
    (feedGo b ('\\' :: '=' :: '=' :: rest) = feedGo (b.push ['=', '=']) rest) ∧
    (rest.head? ≠ some '*' → feedGo b ('\\' :: '*' :: rest) = feedGo (b.push ['*']) rest) ∧
    (rest.head? ≠ some '_' → feedGo b ('\\' :: '_' :: rest) = feedGo (b.push ['_']) rest) ∧
    (feedGo b ('\\' :: backtickChar :: rest) = feedGo (b.push [backtickChar]) rest) ∧
    (feedGo b ('\\' :: '\\' :: rest) = feedGo (b.push ['\\']) rest) ∧
    parseMarkup ['\\', '*', '*', 'a', '\\', '*', '*'] = [⟨0, ['*', '*', 'a', '*', '*']⟩] := by
  refine ⟨?_, ?_, ?_, ?_, ?_, ?_, ?_, ?_, ?_⟩
  · rw [feedGo.eq_def]; simp [hcode, backtickChar]
  · rw [feedGo.eq_def]; simp [hcode, backtickChar]
  · rw [feedGo.eq_def]; simp [hcode, backtickChar]
  · rw [feedGo.eq_def]; simp [hcode, backtickChar]
  · intro hr
    rw [feedGo.eq_def]
    cases rest with
    | nil => simp [hcode, backtickChar]
    | cons c cs =>
      simp only [List.head?, ne_eq, Option.some.injEq] at hr
      simp [hcode, backtickChar, hr]
  · intro hr
    rw [feedGo.eq_def]
    cases rest with
    | nil => simp [hcode, backtickChar]
    | cons c cs =>
      simp only [List.head?, ne_eq, Option.some.injEq] at hr
      simp [hcode, backtickChar, hr]
  · rw [feedGo.eq_def]; simp [backtickChar]
  · rw [feedGo.eq_def]; simp [backtickChar]
  · simp [parseMarkup, MarkupBuilder.feed, MarkupBuilder.dirty, MarkupBuilder.init,
      MarkupBuilder.toText, MarkupBuilder.emit, MarkupBuilder.push, feedGo, backtickChar]

/-- Witness for `C6_amended`: a fresh builder on concrete inputs. -/
theorem C6_amended_witness :
    feedGo MarkupBuilder.init ('\\' :: '~' :: '~' :: ['x']) =
      feedGo (MarkupBuilder.init.push ['~', '~']) ['x'] ∧
    feedGo MarkupBuilder.init ('\\' :: '*' :: ['x']) =
      feedGo (MarkupBuilder.init.push ['*']) ['x'] :=
  ⟨(C6_amended MarkupBuilder.init ['x'] (by decide)).2.2.1,
    (C6_amended MarkupBuilder.init ['x'] (by decide)).2.2.2.2.1 (by decide)⟩

/-- C7 counterexample: two inputs that contain no unescaped markers but do
not round-trip.  `\*` (an escaped marker) parses to the run text `*`, not
`\*`; and `\na` (leading newline, no markers at all) parses to `a` because
a fresh builder strips leading newlines. -/
theorem C7_counterexample :
    markupString (parseMarkup ['\\', '*']) = ['*'] ∧
    markupString (parseMarkup ['\n', 'a']) = ['a'] := by
  constructor <;>
    simp [markupString, parseMarkup, MarkupBuilder.feed, MarkupBuilder.dirty,
      MarkupBuilder.init, MarkupBuilder.toText, MarkupBuilder.emit,
      MarkupBuilder.push, feedGo, backtickChar]

/-- C7 (corrected, amended): for every input that contains no marker
characters (`*`, `_`, backtick), no adjacent `~~`, `==`, or `\\` pair
(so in particular no unescaped markers and no escape sequences), and does
not begin with a newline, parsing and concatenating all run text returns
the input unchanged. -/
theorem C7_amended (cs : List Char) (hfree : markerFree cs)
    (hnl : cs.head? ≠ some '\n') :
    markupString (parseMarkup cs) = cs := by
  have hdrop : cs.dropWhile (· = '\n') = cs := by
    cases cs with
    | nil => rfl
    | cons c t =>
      simp only [List.head?, ne_eq, Option.some.injEq] at hnl
      rw [List.dropWhile_cons_of_neg (by simpa using hnl)]
  unfold parseMarkup MarkupBuilder.feed
  rw [show MarkupBuilder.init.dirty = false from rfl]
  simp only [Bool.false_eq_true, if_false]
  rw [hdrop, feedGo_plain cs MarkupBuilder.init hfree]
  by_cases hcs : cs = []
  · subst hcs; rfl
  · simp [MarkupBuilder.emit, MarkupBuilder.toText, MarkupBuilder.push,
      MarkupBuilder.init, hcs, markupString]

/-- Witness for `C7_amended` on a concrete marker-free input. -/
theorem C7_amended_witness :
    markupString (parseMarkup ['a', ' ', '~', 'b']) = ['a', ' ', '~', 'b'] :=
  C7_amended ['a', ' ', '~', 'b'] (by decide) (by decide)

theorem splitGo_flatten (cs : List Char) : ∀ (runes : List Char) (ws : Bool),
    (splitGo cs runes ws).flatten = runes ++ cs := by
  induction cs with
  | nil =>
    intro runes ws
    by_cases h : runes = [] <;> simp [splitGo, h]
  | cons r rest ih =>
    intro runes ws
    simp only [splitGo]
    split_ifs with h
    · simp [ih]
    · simp [ih]

theorem splitGo_ne_nil (cs : List Char) : ∀ (runes : List Char) (ws : Bool),
    ∀ chunk ∈ splitGo cs runes ws, chunk ≠ [] := by
  induction cs with
  | nil =>
    intro runes ws chunk hm
    simp only [splitGo] at hm
    split_ifs at hm with h
    · simp at hm
    · simp only [List.mem_singleton] at hm
      exact hm ▸ h
  | cons r rest ih =>
    intro runes ws chunk hm
    simp only [splitGo] at hm
    split_ifs at hm with h
    · rcases List.mem_cons.mp hm with h' | h'
      · exact h' ▸ h.1
      · exact ih _ _ _ h'
    · exact ih _ _ _ hm

theorem splitGo_homog (cs : List Char) : ∀ (runes : List Char) (ws : Bool),
    (∀ c ∈ runes, goIsSpace c = ws) →
    ∀ chunk ∈ splitGo cs runes ws, ∀ c ∈ chunk, ∀ c' ∈ chunk,
      goIsSpace c = goIsSpace c' := by
  induction cs with
  | nil =>
    intro runes ws hr chunk hm c hc c' hc'
    simp only [splitGo] at hm
    split_ifs at hm with h
    · simp at hm
    · simp only [List.mem_singleton] at hm
      subst hm
      rw [hr c hc, hr c' hc']
  | cons r rest ih =>
    intro runes ws hr chunk hm c hc c' hc'
    simp only [splitGo] at hm
    split_ifs at hm with h
    · rcases List.mem_cons.mp hm with h' | h'
      · subst h'
        rw [hr c hc, hr c' hc']
      · exact ih [r] (goIsSpace r) (by simp) _ h' c hc c' hc'
    · refine ih (runes ++ [r]) (goIsSpace r) ?_ _ hm c hc c' hc'
      intro x hx
      rcases List.mem_append.mp hx with h' | h'
      · rcases not_and_or.mp h with h'' | h''
        · rw [not_not] at h''
          exact absurd h' (by simp [h''])
        · rw [not_not] at h''
          rw [hr x h', h'']
      · rw [List.mem_singleton.mp h']

theorem splitGo_head (cs : List Char) : ∀ (runes : List Char) (ws : Bool),
    runes ≠ [] → ∃ chunk rest', splitGo cs runes ws = chunk :: rest' ∧
      chunk.head? = runes.head? := by
  induction cs with
  | nil =>
    intro runes ws h
    exact ⟨runes, [], by simp [splitGo, h], rfl⟩
  | cons r rest ih =>
    intro runes ws h
    simp only [splitGo]
    split_ifs with hcond
    · exact ⟨runes, _, rfl, rfl⟩
    · obtain ⟨chunk, rest', heq, hhead⟩ := ih (runes ++ [r]) (goIsSpace r) (by simp)
      refine ⟨chunk, rest', heq, hhead.trans ?_⟩
      rcases runes with _ | ⟨a, t⟩
      · exact absurd rfl h
      · rfl

theorem splitGo_chain (cs : List Char) : ∀ (runes : List Char) (ws : Bool),
    (∀ c ∈ runes, goIsSpace c = ws) →
    List.Chain' (fun a b => headSpace a ≠ headSpace b) (splitGo cs runes ws) := by
  induction cs with
  | nil =>
    intro runes ws _
    by_cases h : runes = [] <;> simp [splitGo, h]
  | cons r rest ih =>
    intro runes ws hr
    simp only [splitGo]
    split_ifs with h
    · rw [List.chain'_cons']
      refine ⟨?_, ih [r] (goIsSpace r) (by simp)⟩
      intro y hy
      obtain ⟨chunk, rest', heq, hhead⟩ := splitGo_head rest [r] (goIsSpace r) (by simp)
      rw [heq] at hy
      simp only [List.head?_cons, Option.mem_def, Option.some.injEq] at hy
      subst hy
      rcases runes with _ | ⟨a, t⟩
      · exact absurd rfl h.1
      · have h1 : headSpace (a :: t) = ws := by
          simpa [headSpace] using hr a (by simp)
        have h2 : headSpace chunk = goIsSpace r := by
          simp only [List.head?_cons] at hhead
          rcases chunk with _ | ⟨b, t'⟩
          · simp at hhead
          · simp only [List.head?_cons, Option.some.injEq] at hhead
            simp [headSpace, hhead]
        rw [h1, h2]
        exact h.2
    · refine ih (runes ++ [r]) (goIsSpace r) ?_
      intro x hx
      rcases List.mem_append.mp hx with h' | h'
      · rcases not_and_or.mp h with h'' | h''
        · rw [not_not] at h''
          exact absurd h' (by simp [h''])
        · rw [not_not] at h''
          rw [hr x h', h'']
      · rw [List.mem_singleton.mp h']

/-- C8 (confirmed): a run carrying an opaque style (Code or BigText — the
code's opaque set; there is no NoWrap flag in the style set, see C5) is
emitted by the word segmenter as one unsplit atom verbatim; any other run
is split into non-empty chunks that are each homogeneous in
whitespace-ness and alternate between whitespace and non-whitespace
(hence maximal), all inheriting the run's style; and concatenating the
atom text of a run reproduces the run's text exactly. -/
theorem C8_segmenter (attr : ℕ) (text : List Char) :
    (attr &&& (Code ||| BigText) ≠ 0 → words [⟨attr, text⟩] = [(attr, text)]) ∧
    (attr &&& (Code ||| BigText) = 0 →
      words [⟨attr, text⟩] = (splitGo text [] false).map (fun cs => (attr, cs)) ∧
      (∀ chunk ∈ splitGo text [] false, chunk ≠ [] ∧
        ∀ c ∈ chunk, ∀ c' ∈ chunk, goIsSpace c = goIsSpace c') ∧
      List.Chain' (fun a b => headSpace a ≠ headSpace b) (splitGo text [] false)) ∧
    atomsText (words [⟨attr, text⟩]) = text ∧
    (∀ a ∈ words [⟨attr, text⟩], a.1 = attr) := by
  refine ⟨fun h => by simp [words, h], fun h => ⟨by simp [words, h], ?_, ?_⟩, ?_, ?_⟩
  · exact fun chunk hm =>
      ⟨splitGo_ne_nil text [] false chunk hm,
       splitGo_homog text [] false (by simp) chunk hm⟩
  · exact splitGo_chain text [] false (by simp)
  · by_cases h : attr &&& (Code ||| BigText) = 0
    · simp [words, h, atomsText, Function.comp, splitGo_flatten text [] false]
    · simp [words, h, atomsText]
  · intro a ha
    by_cases h : attr &&& (Code ||| BigText) = 0
    · simp [words, h] at ha
      obtain ⟨cs, _, hcs⟩ := ha
      simp [← hcs]
    · simp [words, h] at ha
      rw [ha]

/-- Witness for `C8_segmenter`: an opaque Code run is kept whole, an
unstyled run splits at the space. -/
theorem C8_segmenter_witness :
    words [⟨16, ['a', ' ', 'b']⟩] = [(16, ['a', ' ', 'b'])] ∧
    words [⟨0, ['a', ' ', 'b']⟩] = [(0, ['a']), (0, [' ']), (0, ['b'])] :=
  ⟨(C8_segmenter 16 ['a', ' ', 'b']).1 (by decide),
   by rw [((C8_segmenter 0 ['a', ' ', 'b']).2.1 (by decide)).1]; decide⟩

theorem findIdx?_none_of_not_mem {word : List Char} (h : '\n' ∉ word) :
    word.findIdx? (· = '\n') = none := by
  rw [List.findIdx?_eq_none_iff]
  intro x hx
  simp only [decide_eq_false_iff_not]
  intro he
  exact h (he ▸ hx)

theorem overflowItem_ne (w : Int) (l : List Atom) (hinv : l = [] → w = 0) :
    overflowItem ≠ (w, l) := by
  intro he
  have hl : l = [] := (congrArg Prod.snd he).symm
  have hw : w = -1 := (congrArg Prod.fst he).symm
  rw [hinv hl] at hw
  exact absurd hw (by norm_num)

theorem wrapGo_cons_none {face : ℕ → Face} {tab dx : Int} {attr : ℕ}
    {word : List Char} {rest : List Atom} {w : Int} {l : List Atom}
    (h : word.findIdx? (· = '\n') = none) :
    wrapGo face tab dx ((attr, word) :: rest) w l =
      if dx < ceil26_6 (w + measureText (face attr) tab word) then
        if w = 0 then [(-1, [])]
        else (w, l) ::
          (if headSpace word then wrapGo face tab dx rest 0 []
           else wrapGo face tab dx rest (measureText (face attr) tab word)
                  [(attr, word)])
      else wrapGo face tab dx rest (w + measureText (face attr) tab word)
             (l ++ [(attr, word)]) := by
  simp only [wrapGo, h]

theorem wrapGo_cons_some {face : ℕ → Face} {tab dx : Int} {attr : ℕ}
    {word : List Char} {rest : List Atom} {w : Int} {l : List Atom} {nl : ℕ}
    (h : word.findIdx? (· = '\n') = some nl) :
    wrapGo face tab dx ((attr, word) :: rest) w l =
      if word.drop (nl + 1) = [] then
        (w, l) :: (0, []) :: wrapGo face tab dx rest 0 []
      else
        (w, l) :: (0, []) ::
          (if dx < ceil26_6 (0 + measureText (face attr) tab (word.drop (nl + 1))) then
            [(-1, [])]
          else
            wrapGo face tab dx rest
              (0 + measureText (face attr) tab (word.drop (nl + 1)))
              [(attr, word.drop (nl + 1))]) := by
  simp only [wrapGo, h]

theorem wrapGo_ov_last (face : ℕ → Face) (tab dx : Int) :
    ∀ (atoms : List Atom) (w : Int) (l : List Atom), (l = [] → w = 0) →
      overflowItem ∈ wrapGo face tab dx atoms w l →
      ∃ pre, wrapGo face tab dx atoms w l = pre ++ [overflowItem] ∧
        overflowItem ∉ pre := by
  intro atoms
  induction atoms with
  | nil =>
    intro w l hinv hmem
    simp only [wrapGo, List.mem_singleton] at hmem
    exact absurd hmem (overflowItem_ne w l hinv)
  | cons a rest ih =>
    rcases a with ⟨attr, word⟩
    intro w l hinv hmem
    have hne := overflowItem_ne w l hinv
    rcases hfi : word.findIdx? (· = '\n') with _ | nl <;>
      [rw [wrapGo_cons_none hfi] at hmem ⊢; rw [wrapGo_cons_some hfi] at hmem ⊢]
    · -- no newline in this atom
      by_cases h1 : dx < ceil26_6 (w + measureText (face attr) tab word)
      · rw [if_pos h1] at hmem ⊢
        by_cases h2 : w = 0
        · rw [if_pos h2] at hmem ⊢
          exact ⟨[], rfl, by simp⟩
        · rw [if_neg h2] at hmem ⊢
          by_cases h3 : headSpace word = true
          · rw [if_pos h3] at hmem ⊢
            rcases List.mem_cons.mp hmem with h' | h'
            · exact absurd h' hne
            · obtain ⟨pre, heq, hpre⟩ := ih 0 [] (fun _ => rfl) h'
              exact ⟨(w, l) :: pre, by rw [heq]; rfl, by
                simp only [List.mem_cons]
                rintro (h'' | h'')
                exacts [hne h'', hpre h'']⟩
          · rw [if_neg h3] at hmem ⊢
            rcases List.mem_cons.mp hmem with h' | h'
            · exact absurd h' hne
            · obtain ⟨pre, heq, hpre⟩ :=
                ih (measureText (face attr) tab word) [(attr, word)]
                  (fun hh => absurd hh (by simp)) h'
              exact ⟨(w, l) :: pre, by rw [heq]; rfl, by
                simp only [List.mem_cons]
                rintro (h'' | h'')
                exacts [hne h'', hpre h'']⟩
      · rw [if_neg h1] at hmem ⊢
        exact ih _ _ (fun hh => absurd hh (by simp)) hmem
    · -- the atom contains a newline
      by_cases h0 : word.drop (nl + 1) = []
      · rw [if_pos h0] at hmem ⊢
        rcases List.mem_cons.mp hmem with h' | h'
        · exact absurd h' hne
        rcases List.mem_cons.mp h' with h'' | h''
        · exact absurd (congrArg Prod.fst h'') (by norm_num [overflowItem])
        obtain ⟨pre, heq, hpre⟩ := ih 0 [] (fun _ => rfl) h''
        refine ⟨(w, l) :: (0, []) :: pre, by rw [heq]; rfl, ?_⟩
        simp only [List.mem_cons]
        rintro (h3 | h3 | h3)
        exacts [hne h3, absurd (congrArg Prod.fst h3) (by norm_num [overflowItem]),
          hpre h3]
      · rw [if_neg h0] at hmem ⊢
        by_cases h1 : dx < ceil26_6 (0 + measureText (face attr) tab (word.drop (nl + 1)))
        · rw [if_pos h1] at hmem ⊢
          refine ⟨[(w, l), (0, [])], rfl, ?_⟩
          simp only [List.mem_cons]
          rintro (h3 | h3 | h3)
          exacts [hne h3, absurd (congrArg Prod.fst h3) (by norm_num [overflowItem]),
            by simp at h3]
        · rw [if_neg h1] at hmem ⊢
          rcases List.mem_cons.mp hmem with h' | h'
          · exact absurd h' hne
          rcases List.mem_cons.mp h' with h'' | h''
          · exact absurd (congrArg Prod.fst h'') (by norm_num [overflowItem])
          obtain ⟨pre, heq, hpre⟩ :=
            ih (0 + measureText (face attr) tab (word.drop (nl + 1)))
              [(attr, word.drop (nl + 1))] (fun hh => absurd hh (by simp)) h''
          refine ⟨(w, l) :: (0, []) :: pre, by rw [heq]; rfl, ?_⟩
          simp only [List.mem_cons]
          rintro (h3 | h3 | h3)
          exacts [hne h3, absurd (congrArg Prod.fst h3) (by norm_num [overflowItem]),
            hpre h3]

/-- C2 (confirmed): if the overflow sentinel appears in a wrap result it is
the last item and nothing follows it (the generator stops immediately);
wrapping a single newline-free atom that alone measures wider than the box
(on the empty accumulator) yields exactly the overflow sentinel and
nothing else; and the height accumulation of the auto-fit search returns
the failure value (`ok = false`, here `none`) on such a wrap rather than
an error. -/
theorem C2_overflow (face : ℕ → Face) (nlSpace tab dx : Int) :
    (∀ atoms : List Atom, overflowItem ∈ wrapAtoms face tab dx atoms →
      ∃ pre, wrapAtoms face tab dx atoms = pre ++ [overflowItem] ∧
        overflowItem ∉ pre) ∧
    (∀ (attr : ℕ) (word : List Char), '\n' ∉ word →
      dx < ceil26_6 (measureText (face attr) tab word) →
      wrapAtoms face tab dx [(attr, word)] = [overflowItem]) ∧
    (∀ (attr : ℕ) (word : List Char), '\n' ∉ word →
      dx < ceil26_6 (measureText (face attr) tab word) →
      totalHeightItems face nlSpace (wrapAtoms face tab dx [(attr, word)]) = none) := by
  have hsingle : ∀ (attr : ℕ) (word : List Char), '\n' ∉ word →
      dx < ceil26_6 (measureText (face attr) tab word) →
      wrapAtoms face tab dx [(attr, word)] = [overflowItem] := by
    intro attr word hnl hov
    unfold wrapAtoms
    rw [wrapGo_cons_none (findIdx?_none_of_not_mem hnl)]
    rw [if_pos (by simpa using hov), if_pos rfl]
    rfl
  refine ⟨fun atoms hm => wrapGo_ov_last face tab dx atoms 0 [] (fun _ => rfl) hm,
    hsingle, ?_⟩
  intro attr word hnl hov
  rw [hsingle attr word hnl hov]
  rfl

/-- Witness for `C2_overflow`: the five-pixel word `hello` in a
three-pixel box. -/
theorem C2_overflow_witness :
    wrapAtoms cFace 4 3 [(0, ['h', 'e', 'l', 'l', 'o'])] = [overflowItem] ∧
    totalHeightItems cFace 0 (wrapAtoms cFace 4 3 [(0, ['h', 'e', 'l', 'l', 'o'])]) =
      none :=
  ⟨(C2_overflow cFace 0 4 3).2.1 0 ['h', 'e', 'l', 'l', 'o'] (by decide) (by decide),
   (C2_overflow cFace 0 4 3).2.2 0 ['h', 'e', 'l', 'l', 'o'] (by decide) (by decide)⟩

theorem wrapGo_width_inv (face : ℕ → Face) (tab dx : Int) :
    ∀ (atoms : List Atom) (w : Int) (l : List Atom),
      (l = [] → w = 0) →
      (∀ a l', l = a :: l' →
        ceil26_6 w ≤ dx ∨ dx < ceil26_6 (measureText (face a.1) tab a.2)) →
      ∀ (w' : Int) (a : Atom) (l'' : List Atom),
        (w', a :: l'') ∈ wrapGo face tab dx atoms w l →
        ceil26_6 w' ≤ dx ∨ dx < ceil26_6 (measureText (face a.1) tab a.2) := by
  intro atoms
  induction atoms with
  | nil =>
    intro w l _ hinv2 w' a l'' hmem
    simp only [wrapGo, List.mem_singleton, Prod.mk.injEq] at hmem
    exact hmem.1 ▸ hinv2 a l'' hmem.2.symm
  | cons p rest ih =>
    rcases p with ⟨attr, word⟩
    intro w l hinv1 hinv2 w' a l'' hmem
    rcases hfi : word.findIdx? (· = '\n') with _ | nl <;>
      [rw [wrapGo_cons_none hfi] at hmem; rw [wrapGo_cons_some hfi] at hmem]
    · by_cases h1 : dx < ceil26_6 (w + measureText (face attr) tab word)
      · rw [if_pos h1] at hmem
        by_cases h2 : w = 0
        · rw [if_pos h2] at hmem
          simp at hmem
        · rw [if_neg h2] at hmem
          rcases List.mem_cons.mp hmem with h' | h'
          · obtain ⟨hw, hl⟩ := Prod.mk.injEq .. ▸ h'
            exact hw ▸ hinv2 a l'' hl.symm
          by_cases h3 : headSpace word = true
          · rw [if_pos h3] at h'
            exact ih 0 [] (fun _ => rfl) (by simp) w' a l'' h'
          · rw [if_neg h3] at h'
            refine ih (measureText (face attr) tab word) [(attr, word)]
              (by simp) ?_ w' a l'' h'
            rintro b l' hb
            obtain ⟨hb1, -⟩ := List.cons.injEq .. ▸ hb
            rw [← hb1]
            exact le_or_lt (ceil26_6 (measureText (face attr) tab word)) dx
      · rw [if_neg h1] at hmem
        refine ih (w + measureText (face attr) tab word) (l ++ [(attr, word)])
          (by simp) ?_ w' a l'' hmem
        intro b l' _
        exact Or.inl (not_lt.mp h1)
    · by_cases h0 : word.drop (nl + 1) = []
      · rw [if_pos h0] at hmem
        rcases List.mem_cons.mp hmem with h' | h'
        · obtain ⟨hw, hl⟩ := Prod.mk.injEq .. ▸ h'
          exact hw ▸ hinv2 a l'' hl.symm
        rcases List.mem_cons.mp h' with h'' | h''
        · simp at h''
        · exact ih 0 [] (fun _ => rfl) (by simp) w' a l'' h''
      · rw [if_neg h0] at hmem
        rcases List.mem_cons.mp hmem with h' | h'
        · obtain ⟨hw, hl⟩ := Prod.mk.injEq .. ▸ h'
          exact hw ▸ hinv2 a l'' hl.symm
        rcases List.mem_cons.mp h' with h'' | h''
        · simp at h''
        by_cases h1 : dx < ceil26_6 (0 + measureText (face attr) tab (word.drop (nl + 1)))
        · rw [if_pos h1] at h''
          simp at h''
        · rw [if_neg h1] at h''
          refine ih (0 + measureText (face attr) tab (word.drop (nl + 1)))
            [(attr, word.drop (nl + 1))] (by simp) ?_ w' a l'' h''
          rintro b l' hb
          obtain ⟨hb1, -⟩ := List.cons.injEq .. ▸ hb
          rw [← hb1]
          simpa using
            le_or_lt (ceil26_6 (measureText (face attr) tab (word.drop (nl + 1)))) dx

/-- C3 counterexample: `a` (one pixel) fits the five-pixel box; the
ten-pixel `b` forces a break and is appended to the fresh line without a
recheck, so the wrapper emits the non-sentinel line `[(0, "b")]` with
width 640 whose ceiling, 10 pixels, exceeds the box width 5 — refuting
"measured width rounded up is at most the box width for every
non-sentinel line". -/
theorem C3_counterexample :
    wrapAtoms wFace 4 5 [(0, ['a']), (0, ['b'])] =
      [(64, [(0, ['a'])]), (640, [(0, ['b'])])] ∧
    ¬(ceil26_6 640 ≤ 5) := by decide

/-- C3 (corrected, amended): every non-sentinel line either has
`ceil(width) ≤ box width`, or its first atom alone measures wider than
the box (such a line arises when a forced break or a newline reset starts
the new line with the pending atom without rechecking it, and only then);
and an atom is appended to the line currently being accumulated exactly
when `ceil(accumulated width + atom width)` does not exceed the box
width, equality — exactly filling the box — counting as a fit. -/
theorem C3_width (face : ℕ → Face) (tab dx : Int) :
    (∀ (atoms : List Atom) (w' : Int) (a : Atom) (l'' : List Atom),
      (w', a :: l'') ∈ wrapAtoms face tab dx atoms →
      ceil26_6 w' ≤ dx ∨ dx < ceil26_6 (measureText (face a.1) tab a.2)) ∧
    (∀ (attr : ℕ) (word : List Char) (rest : List Atom) (w : Int) (l : List Atom),
      '\n' ∉ word →
      ceil26_6 (w + measureText (face attr) tab word) ≤ dx →
      wrapGo face tab dx ((attr, word) :: rest) w l =
        wrapGo face tab dx rest (w + measureText (face attr) tab word)
          (l ++ [(attr, word)])) := by
  constructor
  · intro atoms w' a l'' hmem
    exact wrapGo_width_inv face tab dx atoms 0 [] (fun _ => rfl) (by simp)
      w' a l'' hmem
  · intro attr word rest w l hnl hfits
    rw [wrapGo_cons_none (findIdx?_none_of_not_mem hnl), if_neg (not_lt.mpr hfits)]

/-- Witness for `C3_width`: the width bound on a produced line, and an
acceptance where the atom exactly fills the box (equality fits). -/
theorem C3_width_witness :
    (ceil26_6 64 ≤ (3 : Int) ∨
      (3 : Int) < ceil26_6 (measureText (cFace 0) 4 ['a'])) ∧
    wrapGo cFace 4 1 [(0, ['a'])] 0 [] =
      wrapGo cFace 4 1 [] (0 + measureText (cFace 0) 4 ['a']) ([] ++ [(0, ['a'])]) :=
  ⟨(C3_width cFace 4 3).1 [(0, ['a'])] 64 (0, ['a']) [] (by decide),
   (C3_width cFace 4 1).2 0 ['a'] [] 0 [] (by decide) (by decide)⟩

theorem elideWS_refl (xs : List Atom) : elideWS xs xs := by
  induction xs with
  | nil => exact .nil
  | cons a t ih => exact .keep a ih

theorem elideWS_append_left (l : List Atom) {xs ys : List Atom}
    (h : elideWS xs ys) : elideWS (l ++ xs) (l ++ ys) := by
  induction l with
  | nil => exact h
  | cons a t ih => exact .keep a ih

theorem wrapGo_elide (face : ℕ → Face) (tab dx : Int) :
    ∀ (atoms : List Atom) (w : Int) (l : List Atom),
      (∀ a ∈ atoms, '\n' ∉ a.2) →
      overflowItem ∉ wrapGo face tab dx atoms w l →
      elideWS (linesAtoms (wrapGo face tab dx atoms w l)) (l ++ atoms) := by
  intro atoms
  induction atoms with
  | nil =>
    intro w l _ _
    simpa [wrapGo, linesAtoms] using elideWS_refl l
  | cons p rest ih =>
    rcases p with ⟨attr, word⟩
    intro w l hnl hov
    have hword : '\n' ∉ word := hnl (attr, word) (by simp)
    have hrest : ∀ a ∈ rest, '\n' ∉ a.2 := fun a ha => hnl a (by simp [ha])
    rw [wrapGo_cons_none (findIdx?_none_of_not_mem hword)] at hov ⊢
    by_cases h1 : dx < ceil26_6 (w + measureText (face attr) tab word)
    · rw [if_pos h1] at hov ⊢
      by_cases h2 : w = 0
      · rw [if_pos h2] at hov
        exact absurd (by simp [overflowItem]) hov
      · rw [if_neg h2] at hov ⊢
        by_cases h3 : headSpace word = true
        · rw [if_pos h3] at hov ⊢
          have hov' : overflowItem ∉ wrapGo face tab dx rest 0 [] :=
            fun hh => hov (List.mem_cons_of_mem _ hh)
          have := ih 0 [] hrest hov'
          simp only [List.nil_append] at this
          simp only [linesAtoms, List.map_cons, List.flatten_cons]
          exact elideWS_append_left l (.dropWS (attr, word) (by simpa using h3) this)
        · rw [if_neg h3] at hov ⊢
          have hov' : overflowItem ∉
              wrapGo face tab dx rest (measureText (face attr) tab word)
                [(attr, word)] :=
            fun hh => hov (List.mem_cons_of_mem _ hh)
          have := ih (measureText (face attr) tab word) [(attr, word)] hrest hov'
          simp only [List.singleton_append] at this
          simp only [linesAtoms, List.map_cons, List.flatten_cons]
          exact elideWS_append_left l this
    · rw [if_neg h1] at hov ⊢
      have := ih (w + measureText (face attr) tab word) (l ++ [(attr, word)])
        hrest hov
      simpa [linesAtoms] using this

/-- C4 counterexample: an opaque Code atom containing a newline loses its
text up to and including the first newline — wrapping the single atom
`a\nb` in a wide box yields lines whose concatenated text is `b`, even
though no pure-whitespace atom forced a line break, so the claimed
"reproduces the input text exactly, except dropped break-forcing
whitespace atoms" fails. -/
theorem C4_counterexample :
    itemsText (wrapAtoms cFace 4 1000 [(16, ['a', '\n', 'b'])]) = ['b'] ∧
    ['b'] ≠ ['a', '\n', 'b'] := by decide

/-- C4 (corrected, amended): for every atom sequence in which no atom's
text contains a newline character and whose wrap output contains no
overflow sentinel, the atoms of the produced lines are exactly the input
atoms with some atoms whose first character is whitespace elided (those
that forced a line break; for segmenter-produced non-opaque atoms these
are precisely the pure-whitespace atoms), so the concatenated line text
reproduces the input text except for those elisions.  Atoms containing a
newline additionally lose their text up to and including the first
newline, and after an overflow sentinel the remaining input is dropped
entirely. -/
theorem C4_completeness (face : ℕ → Face) (tab dx : Int) (atoms : List Atom)
    (hnl : ∀ a ∈ atoms, '\n' ∉ a.2)
    (hov : overflowItem ∉ wrapAtoms face tab dx atoms) :
    elideWS (linesAtoms (wrapAtoms face tab dx atoms)) atoms := by
  simpa using wrapGo_elide face tab dx atoms 0 [] hnl hov

/-- Witness for `C4_completeness`: `ab`, a space, `cd` in a two-pixel box;
the space forces the break and is elided, `ab` and `cd` survive. -/
theorem C4_completeness_witness :
    elideWS
      (linesAtoms (wrapAtoms cFace 4 2 [(0, ['a', 'b']), (0, [' ']), (0, ['c', 'd'])]))
      [(0, ['a', 'b']), (0, [' ']), (0, ['c', 'd'])] :=
  C4_completeness cFace 4 2 [(0, ['a', 'b']), (0, [' ']), (0, ['c', 'd'])]
    (by decide) (by decide)

theorem autoFitGo_takeWhile (fits : ℕ → Bool) :
    ∀ (lst : List ℕ) (size : ℕ),
      autoFitGo fits lst size = (lst.takeWhile fits).getLastD size := by
  intro lst
  induction lst with
  | nil => intro size; rfl
  | cons i rest ih =>
    intro size
    simp only [autoFitGo, List.takeWhile_cons]
    by_cases h : fits i = true
    · rw [if_pos h, ih i, if_pos h, List.getLastD_cons]
    · rw [if_neg h, if_neg h]
      rfl

/-- C1 counterexample: the sizer is not the spec's two-phase
doubling-plus-half-step-refinement search.  With a face family (indexed
by size in half-units) whose single line is one pixel high per half-unit
and a box six pixels high, the code's loop over sizes 1, 2, 3, … keeps
size 2 (4 half-units: at size 3 the six-pixel height no longer fits),
while the spec's expansion (1, 2, 4) and half-step refinement
(2, 2.5, 3) on the same fit predicate returns 2.5 (5 half-units). -/
theorem C1_counterexample :
    ¬(2 * drawSize cFacesH cNl 4 1000 6 cM =
      specAutoFitSize (fun n => sizeFits (cFacesH n) (cNl n) 4 1000 6 cM)) := by
  decide

/-- C1 (corrected, amended): when no explicit font size is configured,
`Draw`'s sizer is a single linear scan over integer candidate sizes
1, 2, …, 99 in unit steps that stops at the first size whose wrap
overflows or whose total height ceiling reaches the box height; it
returns the last size of the fitting prefix — the largest tested size
satisfying the fit predicate — and the degenerate 0 when even size 1
fails.  There is no doubling expansion phase and no half-unit refinement
phase. -/
theorem C1_linear_scan (faces : ℕ → ℕ → Face) (nlSpace : ℕ → Int)
    (tab dx dy : Int) (m : MarkupText) :
    drawSize faces nlSpace tab dx dy m =
      ((List.range' 1 99).takeWhile
        (fun i => sizeFits (faces (2 * i)) (nlSpace (2 * i)) tab dx dy m)).getLastD 0 ∧
    (sizeFits (faces 2) (nlSpace 2) tab dx dy m = false →
      drawSize faces nlSpace tab dx dy m = 0) := by
  constructor
  · unfold drawSize autoFitSize
    exact autoFitGo_takeWhile _ (List.range' 1 99) 0
  · intro h1
    have h1' : sizeFits (faces (2 * 1)) (nlSpace (2 * 1)) tab dx dy m = false := by
      simpa using h1
    unfold drawSize autoFitSize
    rw [show (List.range' 1 99 : List ℕ) = 1 :: List.range' 2 98 from rfl]
    simp only [autoFitGo]
    simp [h1']

/-- Witness for `C1_linear_scan`: the concrete family with a six-pixel and
then a one-pixel box. -/
theorem C1_linear_scan_witness :
    drawSize cFacesH cNl 4 1000 6 cM =
      ((List.range' 1 99).takeWhile
        (fun i => sizeFits (cFacesH (2 * i)) (cNl (2 * i)) 4 1000 6 cM)).getLastD 0 ∧
    drawSize cFacesH cNl 4 1000 1 cM = 0 :=
  ⟨(C1_linear_scan cFacesH cNl 4 1000 6 cM).1,
   (C1_linear_scan cFacesH cNl 4 1000 1 cM).2 (by decide)⟩

theorem ceil26_6_mono {a b : Int} (h : a ≤ b) : ceil26_6 a ≤ ceil26_6 b := by
  unfold ceil26_6
  rw [Int.fdiv_eq_ediv _ (by norm_num), Int.fdiv_eq_ediv _ (by norm_num)]
  omega

/-- C9 (confirmed): during rasterization of one line, a decoration run
closes when its style flag is absent on the next run, at a hard line
break, and at line end, and `closeRun` emits a rectangle exactly when the
run is open and the pen has advanced past the recorded start; a line
parsed from `__ab__cd` emits exactly one underline rectangle (and no
strikethrough), whose horizontal span is exactly the pixel extent of
`ab` — from `ceil(startX)` to `ceil(startX + measured width of ab)` —
and not `cd`. -/
theorem C9_decoration (face : ℕ → Face) (tab ox oy startX y0 : Int)
    (hpos : 0 < measureText (face Underline) tab ['a', 'b']) :
    parseMarkup "__ab__cd".toList = [⟨Underline, ['a', 'b']⟩, ⟨0, ['c', 'd']⟩] ∧
    (∀ (run : LineRun) (x y : Int),
      ((closeRun run x y).2.isSome ↔ run.active = true ∧ run.start < x)) ∧
    (∃ ypx thick : Int, 1 ≤ thick ∧
      (drawLineModel face tab ox oy startX y0
          [(Underline, ['a', 'b']), (0, ['c', 'd'])]).rects =
        [(true, (⟨ceil26_6 startX, ypx,
            ceil26_6 (startX + measureText (face Underline) tab ['a', 'b']),
            ypx + thick⟩ : GoRect).trans ox oy)]) := by
  refine ⟨?_, ?_, ?_⟩
  · have d1 : ((4 : ℕ) &&& 16 = 0) := by decide
    have d2 : ((6 : ℕ) &&& 16 = 0) := by decide
    simp [d1, d2, parseMarkup, MarkupBuilder.feed, MarkupBuilder.dirty, MarkupBuilder.init,
      MarkupBuilder.toText, MarkupBuilder.emit, MarkupBuilder.push, MarkupBuilder.toggle,
      feedGo, backtickChar, Bold, Italic, Underline, Strikethrough, Code, BigText]
  · intro run x y
    unfold closeRun
    by_cases ha : run.active = false
    · rw [if_pos ha]
      simp [ha]
    · rw [if_neg ha]
      by_cases hx : x ≤ run.start
      · rw [if_pos hx]
        simp [not_lt.mpr hx]
      · rw [if_neg hx]
        simp [eq_true_of_ne_false ha, not_le.mp hx]
  · have hM : measureText (face Underline) tab ['a', 'b'] =
        (face 4).advance 'a' +
          ((face 4).kern 'a' 'b' + ((face 4).advance 'b' + 0)) := by
      simp [measureText, measureGo, Underline]
    rw [hM] at hpos
    set T : List Atom := [(Underline, ['a', 'b']), (0, ['c', 'd'])] with hT
    set hh : Int := lineHeight face T with hhh
    set aa : Int := lineAsc face T with haa
    set thickv : Int := max (Int.tdiv (ceil26_6 (face 4).height) 20) 1 with hthick
    have hth1 : (1 : Int) ≤ thickv := le_max_right _ _
    refine ⟨ceil26_6 (y0 + aa + thickv * 64), thickv, hth1, ?_⟩
    have e1 : ((4 : ℕ) &&& 8 = 0) := by decide
    have e2 : ¬((4 : ℕ) &&& 4 = 0) := by decide
    have e3 : ((0 : ℕ) &&& 4 = 0) := by decide
    have e4 : ((0 : ℕ) &&& 8 = 0) := by decide
    have hstep1 : drawPart face tab hh aa ox oy
        { dotX := startX, dotY := y0 + aa, yOffset := y0, prev := none,
          ulRun := ⟨true, false, 0, 0, 0⟩, stRun := ⟨false, false, 0, 0, 0⟩,
          rects := [] } (Underline, ['a', 'b']) =
        { dotX := startX + (face 4).advance 'a' +
            ((face 4).kern 'a' 'b' + (face 4).advance 'b'),
          dotY := y0 + aa, yOffset := y0, prev := some 'b',
          ulRun := ⟨true, true, startX, (face 4).height, (face 4).ascent⟩,
          stRun := ⟨false, false, 0, 0, 0⟩,
          rects := [] } := by
      simp [drawPart, drawChar, Underline, Strikethrough, e1, e2]
      ring
    have hnotle : ¬(startX + (face 4).advance 'a' +
        ((face 4).kern 'a' 'b' + (face 4).advance 'b') ≤ startX) := by
      omega
    have hxm : ceil26_6 startX ≤ ceil26_6 (startX + (face 4).advance 'a' +
        ((face 4).kern 'a' 'b' + (face 4).advance 'b')) := by
      apply ceil26_6_mono
      omega
    have hym : ceil26_6 (y0 + aa + thickv * 64) ≤
        ceil26_6 (y0 + aa + thickv * 64) + thickv := by omega
    have hstep2 : drawPart face tab hh aa ox oy
        { dotX := startX + (face 4).advance 'a' +
            ((face 4).kern 'a' 'b' + (face 4).advance 'b'),
          dotY := y0 + aa, yOffset := y0, prev := some 'b',
          ulRun := ⟨true, true, startX, (face 4).height, (face 4).ascent⟩,
          stRun := ⟨false, false, 0, 0, 0⟩,
          rects := [] } (0, ['c', 'd']) =
        { dotX := startX + (face 4).advance 'a' +
            ((face 4).kern 'a' 'b' + (face 4).advance 'b') +
            (face 0).kern 'b' 'c' + (face 0).advance 'c' +
            ((face 0).kern 'c' 'd' + (face 0).advance 'd'),
          dotY := y0 + aa, yOffset := y0, prev := some 'd',
          ulRun := ⟨true, false, startX, (face 4).height, (face 4).ascent⟩,
          stRun := ⟨false, false, 0, 0, 0⟩,
          rects := [(true,
            (⟨ceil26_6 startX, ceil26_6 (y0 + aa + thickv * 64),
              ceil26_6 (startX + (face 4).advance 'a' +
                ((face 4).kern 'a' 'b' + (face 4).advance 'b')),
              ceil26_6 (y0 + aa + thickv * 64) + thickv⟩ : GoRect).trans ox oy)] } := by
      simp [drawPart, drawChar, DrawSt.close, closeRun, mkRect, Strikethrough,
        e3, e4, hnotle, GoRect.trans, ← hthick, min_eq_left hxm, max_eq_right hxm,
        min_eq_left hym, max_eq_right hym]
      ring
    have hfold : drawLineModel face tab ox oy startX y0 T =
        ((([(Underline, ['a','b']), ((0 : ℕ), ['c','d'])].foldl
            (drawPart face tab hh aa ox oy)
            { dotX := startX, dotY := y0 + aa, yOffset := y0, prev := none,
              ulRun := ⟨true, false, 0, 0, 0⟩, stRun := ⟨false, false, 0, 0, 0⟩,
              rects := [] }).close ox oy true).close ox oy false) := by
      rw [drawLineModel]
    rw [hfold, List.foldl_cons, hstep1, List.foldl_cons, List.foldl_nil, hstep2]
    simp only [DrawSt.close, closeRun]
    simp [hM]
    ring_nf

/-- Witness for `C9_decoration` at the uniform one-pixel face. -/
theorem C9_decoration_witness :
    parseMarkup "__ab__cd".toList = [⟨Underline, ['a', 'b']⟩, ⟨0, ['c', 'd']⟩] ∧
    (∃ ypx thick : Int, 1 ≤ thick ∧
      (drawLineModel cFace 4 0 0 0 0 [(Underline, ['a', 'b']), (0, ['c', 'd'])]).rects =
        [(true, (⟨ceil26_6 0, ypx,
            ceil26_6 (0 + measureText (cFace Underline) 4 ['a', 'b']),
            ypx + thick⟩ : GoRect).trans 0 0)]) :=
  ⟨(C9_decoration cFace 4 0 0 0 0 (by decide)).1,
   (C9_decoration cFace 4 0 0 0 0 (by decide)).2.2⟩

end SDP
